import Mathlib

/-!
Verification of the dense Gaussian-elimination solver and the benchmarking
harness of `TheNeedForSpeed.ipynb` (functions `gaussSimple`, `randProb`,
`speed`, and the C++ `gauss` routine), via a shallow embedding: the python
dictionary becomes an association list, floats become exact rationals, and
the notebook's mutable working structures become an explicit state record
that is threaded through the elimination steps.
-/

namespace NeedForSpeed

/-- Failure modes of the solver and the instance generator.  The python
source signals `dimensionError` and `residualCheck` through `assert`
statements in `gaussSimple`, `assertionError` through the `assert n > 0`
in `randProb`, and (per the notebook's in-source comment) a singular
matrix through an explicit no-unique-solution sentinel. -/
inductive Err where
  | dimensionError : Err
  | singularMatrix : Err
  | residualCheck : Err
  | assertionError : Err
deriving DecidableEq

/-- A dense matrix as passed to `gaussSimple`: a dictionary keyed by
(row, column) pairs, embedded as an association list. -/
abbrev MatD := List ((ℕ × ℕ) × ℚ)

/-- Dictionary lookup `A[i,j]` (total, with junk value 0 for a key that is
absent; the solver's precondition check rules absent keys out). -/
def dget (A : MatD) (ij : ℕ × ℕ) : ℚ :=
  match A.find? (fun p => p.1 == ij) with
  | some p => p.2
  | none => 0

/-- Membership test `(i,j) in A`. -/
def dhas (A : MatD) (ij : ℕ × ℕ) : Bool :=
  A.any (fun p => p.1 == ij)

/-- The two input checks of `gaussSimple`:
`assert (len(A) == n*n)` and `assert all((i,j) in A for i in N for j in N)`. -/
def dimOK (A : MatD) (b : List ℚ) : Bool :=
  A.length == b.length * b.length &&
    (List.range b.length).all fun i =>
      (List.range b.length).all fun j => dhas A (i, j)

/-- The augmented working matrix `U` of the C++ `gauss` routine: row `i` is
`[A[i,0], …, A[i,n-1], b[i]]`. -/
def buildU (n : ℕ) (A : MatD) (b : List ℚ) : List (List ℚ) :=
  (List.range n).map fun i =>
    ((List.range n).map fun j => dget A (i, j)) ++ [b.getD i 0]

/-- One row update of the forward elimination pass for pivot row `piv` and
pivot column `i` (C++ source: `mult = U[j][i]/U[i][i]; U[j][i] = 0;
U[j][k] -= mult * U[i][k]` for `k = i+1..n`). -/
def reduceRow (piv : List ℚ) (i : ℕ) (row : List ℚ) : List ℚ :=
  let mult := row.getD i 0 / piv.getD i 0
  row.enum.map fun kv =>
    if kv.1 < i then kv.2
    else if kv.1 = i then 0
    else kv.2 - mult * piv.getD kv.1 0

/-- The memory visible during one `gaussSimple(A, b)` call: the caller's
`A` and `b`, plus the solver's working copies `U = dict(A.items())`
(here already in augmented form, as in the C++ variant) and `x = b[:]`.
All elimination steps mutate only the `U` and `x` fields. -/
structure SolveState where
  A : MatD
  b : List ℚ
  U : List (List ℚ)
  x : List ℚ

/-- The pivot element `U[i][i]` in a given solver state. -/
def pivotEntry (s : SolveState) (i : ℕ) : ℚ :=
  (s.U.getD i []).getD i 0

/-- One full pivot step: eliminate column `i` below row `i`, in place on
the working copy `U` (rows `j ≤ i` are untouched, as in the C++ loop). -/
def stepReduce (i : ℕ) (s : SolveState) : SolveState :=
  { s with
    U := s.U.enum.map fun jr =>
      if jr.1 ≤ i then jr.2 else reduceRow (s.U.getD i []) i jr.2 }

/-- Modelled from the spec: the notebook's `gaussSimple` body is left as an
exercise ("insert your code here"), so the forward-elimination driver is
taken from the spec's algorithm and the in-source comment "return [] if A
does not have full rank (we come across a coefficient of zero)": each pivot
is inspected before it is divided by, and a zero pivot aborts elimination
immediately (signalled as `none`), without performing the division. -/
def stepsElim : List ℕ → SolveState → Option SolveState
  | [], s => some s
  | i :: rest, s =>
    if pivotEntry s i = 0 then none
    else stepsElim rest (stepReduce i s)

/-- Back substitution of the C++ `gauss` routine, building the suffix
`[x_i, …, x_{n-1}]` for `i = n - fuel`:
`x[i] = (U[i][n] - Σ_{j>i} U[i][j]·x[j]) / U[i][i]`. -/
def backSubAux (U : List (List ℚ)) (n : ℕ) : ℕ → List ℚ
  | 0 => []
  | m + 1 =>
    let i := n - (m + 1)
    let xs := backSubAux U n m
    let row := U.getD i []
    let acc := (xs.enum.map fun tv => row.getD (i + 1 + tv.1) 0 * tv.2).sum
    ((row.getD n 0 - acc) / row.getD i 0) :: xs

/-- Back-substitution step, writing the solution into the `x` field. -/
def stepBack (s : SolveState) : SolveState :=
  { s with x := backSubAux s.U s.b.length s.b.length }

/-- Python's binary `max` on rationals (spelled out so that concrete
instances evaluate). -/
def rmax (a c : ℚ) : ℚ := if a ≤ c then c else a

/-- Python's `abs` on rationals. -/
def rabs (a : ℚ) : ℚ := if a < 0 then -a else a

/-- The residual computed by `gaussSimple` before returning:
`max(abs(sum(A[i,j]*x[j] for j in N) - b[i]) for i in N)`. -/
def residual (n : ℕ) (A : MatD) (x b : List ℚ) : ℚ :=
  ((List.range n).map fun i =>
    rabs (((List.range n).map fun j => dget A (i, j) * x.getD j 0).sum - b.getD i 0)).foldr rmax 0

/-- The fixed tolerance `1e-5` of the residual assertion. -/
def tol : ℚ := 1 / 100000

/-- Tail of a `gaussSimple(A, b)` call after forward elimination: a failed
elimination is the singular-matrix failure; otherwise back substitution
runs and the residual assert guards the `return x`. -/
def finishSolve (A : MatD) (b : List ℚ) :
    Option SolveState → Except Err (List ℚ) × MatD × List ℚ
  | none => (.error .singularMatrix, A, b)
  | some s1 =>
    if residual b.length (stepBack s1).A (stepBack s1).x (stepBack s1).b < tol then
      (.ok (stepBack s1).x, (stepBack s1).A, (stepBack s1).b)
    else
      (.error .residualCheck, (stepBack s1).A, (stepBack s1).b)

/-- The full `gaussSimple(A, b)` call on the state embedding.  Returns the
solver's result together with the caller's `A` and `b` as they stand when
the call ends.  Mirrors the source order: dimension asserts, elimination
(working on the copies only), back substitution, then the residual assert
guarding the `return x`. -/
def gaussSimpleSt (A : MatD) (b : List ℚ) : Except Err (List ℚ) × MatD × List ℚ :=
  if dimOK A b then
    finishSolve A b
      (stepsElim (List.range b.length) (SolveState.mk A b (buildU b.length A b) b))
  else (.error .dimensionError, A, b)

/-- The value `gaussSimple(A, b)` returns (or the failure it raises). -/
def gaussSimple (A : MatD) (b : List ℚ) : Except Err (List ℚ) :=
  (gaussSimpleSt A b).1

/-- Elimination steps mutate only the working fields `U` and `x`; the
caller's `A` and `b` fields pass through unchanged. -/
lemma stepsElim_frame :
    ∀ (l : List ℕ) (s s' : SolveState),
      stepsElim l s = some s' → s'.A = s.A ∧ s'.b = s.b := by
  intro l
  induction l with
  | nil =>
    intro s s' h
    simp only [stepsElim, Option.some.injEq] at h
    rw [← h]
    exact ⟨rfl, rfl⟩
  | cons i rest ih =>
    intro s s' h
    simp only [stepsElim] at h
    by_cases hp : pivotEntry s i = 0
    · rw [if_pos hp] at h
      exact absurd h (by simp)
    · rw [if_neg hp] at h
      exact ih (stepReduce i s) s' h

/-- Splitting a forward-elimination pass at any point. -/
lemma stepsElim_append (l₁ l₂ : List ℕ) :
    ∀ s, stepsElim (l₁ ++ l₂) s = (stepsElim l₁ s).bind (stepsElim l₂) := by
  induction l₁ with
  | nil => intro s; simp [stepsElim]
  | cons i rest ih =>
    intro s
    simp only [List.cons_append, stepsElim]
    by_cases hp : pivotEntry s i = 0
    · rw [if_pos hp, if_pos hp]
      rfl
    · rw [if_neg hp, if_neg hp]
      exact ih (stepReduce i s)

/-- Equality of `Except` results is decidable, so witness checks can be
settled by evaluation. -/
instance {ε α : Type} [DecidableEq ε] [DecidableEq α] : DecidableEq (Except ε α) :=
  fun a c =>
    match a, c with
    | .error x, .error y =>
      if h : x = y then isTrue (by rw [h]) else isFalse (by simp [h])
    | .error _, .ok _ => isFalse (by simp)
    | .ok _, .error _ => isFalse (by simp)
    | .ok x, .ok y =>
      if h : x = y then isTrue (by rw [h]) else isFalse (by simp [h])

/-- C1: whenever `solve` returns a solution `x` rather than failing (for
`n > 0`), the residual `max_i |Σ_j A[i,j]·x[j] − b[i]|` is below the fixed
tolerance `1e-5`; the implementation verifies this itself, so a failing
check ends in a failure (`residualCheck`) instead of a returned `x`. -/
theorem gaussSimple_residual_below_tol (A : MatD) (b x : List ℚ)
    (_hn : 0 < b.length) (h : gaussSimple A b = .ok x) :
    residual b.length A x b < tol := by
  unfold gaussSimple gaussSimpleSt at h
  by_cases hd : dimOK A b
  · rw [if_pos hd] at h
    cases he : stepsElim (List.range b.length) (SolveState.mk A b (buildU b.length A b) b) with
    | none => rw [he] at h; simp [finishSolve] at h
    | some s1 =>
      rw [he] at h
      simp only [finishSolve] at h
      obtain ⟨hA, hb⟩ := stepsElim_frame _ _ _ he
      by_cases hr :
          residual b.length (stepBack s1).A (stepBack s1).x (stepBack s1).b < tol
      · rw [if_pos hr] at h
        simp only [Except.ok.injEq] at h
        have hA2 : (stepBack s1).A = A := hA
        have hb2 : (stepBack s1).b = b := hb
        rw [hA2, hb2, h] at hr
        exact hr
      · rw [if_neg hr] at h
        simp at h
  · rw [if_neg hd] at h
    simp at h

/-- Witness for C1 at a concrete input: the 1×1 identity system. -/
theorem gaussSimple_residual_below_tol_witness :
    0 < [(1 : ℚ)].length ∧ residual 1 [((0, 0), (1 : ℚ))] [1] [1] < tol :=
  ⟨by decide,
    gaussSimple_residual_below_tol [((0, 0), (1 : ℚ))] [1] [1] (by decide)
      (by
        norm_num [gaussSimple, gaussSimpleSt, finishSolve, dimOK, dhas, buildU, dget,
          stepsElim, stepReduce, reduceRow, pivotEntry, stepBack, backSubAux, residual,
          rmax, rabs, tol, List.range_succ])⟩

/-- C2: on an input whose forward elimination reaches a zero pivot
`U[i][i]`, `solve` fails with the singular-matrix failure; the elimination
aborts at that pivot (by definition of `stepsElim` the division by the
zero pivot is never performed). -/
theorem gaussSimple_zero_pivot_fails (A : MatD) (b : List ℚ)
    (hd : dimOK A b = true)
    (h : ∃ l₁ i l₂ s, List.range b.length = l₁ ++ i :: l₂ ∧
        stepsElim l₁ (SolveState.mk A b (buildU b.length A b) b) = some s ∧
        pivotEntry s i = 0) :
    gaussSimple A b = .error .singularMatrix := by
  obtain ⟨l₁, i, l₂, s, hsplit, hrun, hpiv⟩ := h
  unfold gaussSimple gaussSimpleSt
  rw [if_pos hd, hsplit, stepsElim_append, hrun]
  have hbind : ((some s).bind (stepsElim (i :: l₂))) = none := by
    show stepsElim (i :: l₂) s = none
    simp only [stepsElim]
    rw [if_pos hpiv]
  rw [hbind]
  simp [finishSolve]

/-- Witness for C2: the spec's own example `A = [[0,1],[1,0]]`, `b = [1,1]`
hits the zero pivot `U[0][0]` at the very first elimination step. -/
theorem gaussSimple_zero_pivot_fails_witness :
    dimOK [((0, 0), (0 : ℚ)), ((0, 1), 1), ((1, 0), 1), ((1, 1), 0)] [1, 1] = true ∧
    gaussSimple [((0, 0), (0 : ℚ)), ((0, 1), 1), ((1, 0), 1), ((1, 1), 0)] [1, 1] =
      .error .singularMatrix :=
  ⟨by decide,
    gaussSimple_zero_pivot_fails
      [((0, 0), (0 : ℚ)), ((0, 1), 1), ((1, 0), 1), ((1, 1), 0)] [1, 1] (by decide)
      ⟨[], 0, [1],
        SolveState.mk [((0, 0), (0 : ℚ)), ((0, 1), 1), ((1, 0), 1), ((1, 1), 0)] [1, 1]
          (buildU 2 [((0, 0), (0 : ℚ)), ((0, 1), 1), ((1, 0), 1), ((1, 1), 0)] [1, 1])
          [1, 1],
        by decide, rfl, by decide⟩⟩

/-- C3: `gaussSimple` does not mutate its arguments: the caller's `A` and
`b` fields of the memory state are unchanged after the call (elimination
and back substitution write only to the working copies `U` and `x`), and
calling the solver again on the post-call `A`, `b` yields the identical
result. -/
theorem gaussSimple_no_mutation (A : MatD) (b : List ℚ) :
    (gaussSimpleSt A b).2.1 = A ∧ (gaussSimpleSt A b).2.2 = b ∧
    gaussSimpleSt (gaussSimpleSt A b).2.1 (gaussSimpleSt A b).2.2 = gaussSimpleSt A b := by
  have hAb : (gaussSimpleSt A b).2.1 = A ∧ (gaussSimpleSt A b).2.2 = b := by
    unfold gaussSimpleSt
    by_cases hd : dimOK A b
    · rw [if_pos hd]
      cases he : stepsElim (List.range b.length) (SolveState.mk A b (buildU b.length A b) b) with
      | none => exact ⟨rfl, rfl⟩
      | some s1 =>
        simp only [finishSolve]
        obtain ⟨hA, hb⟩ := stepsElim_frame _ _ _ he
        have hA2 : (stepBack s1).A = A := hA
        have hb2 : (stepBack s1).b = b := hb
        by_cases hr :
            residual b.length (stepBack s1).A (stepBack s1).x (stepBack s1).b < tol
        · rw [if_pos hr]
          exact ⟨hA2, hb2⟩
        · rw [if_neg hr]
          exact ⟨hA2, hb2⟩
    · rw [if_neg hd]
      exact ⟨rfl, rfl⟩
  exact ⟨hAb.1, hAb.2, by rw [hAb.1, hAb.2]⟩

/-- C7: when the input checks fail — `A`'s size differs from `len(b)²` or
some index pair is missing — `gaussSimple` fails with the dimension
failure, surfaced to the caller (no local recovery precedes the `error`). -/
theorem gaussSimple_dim_mismatch (A : MatD) (b : List ℚ)
    (hd : dimOK A b = false) :
    gaussSimple A b = .error .dimensionError := by
  unfold gaussSimple gaussSimpleSt
  rw [if_neg (by rw [hd]; exact Bool.false_ne_true)]

/-- Witness for C7: an empty dictionary against a length-1 vector. -/
theorem gaussSimple_dim_mismatch_witness :
    dimOK [] [(1 : ℚ)] = false ∧
    gaussSimple [] [(1 : ℚ)] = .error .dimensionError :=
  ⟨by decide, gaussSimple_dim_mismatch [] [(1 : ℚ)] (by decide)⟩

/-- Modelled from the spec: Python's `random` module (the `seed` and
`random` calls used by `randProb` and `speed`) is library state external to
the repository; the spec requires only that it be "a deterministic
pseudo-random source seeded by a caller-supplied seed value".  It is
modelled as a pure state machine on `ℕ` (a linear-congruential step stands
in for the Mersenne twister). -/
def rngStep (s : ℕ) : ℕ := (1103515245 * s + 12345) % 2147483648

/-- Modelled from the spec: `random.seed(x)` overwrites the generator
state with a value determined by `x` alone. -/
def seedInit (x : ℕ) : ℕ := rngStep (x + 1)

/-- A rational literal with denominator 1, built without arithmetic so
concrete generated instances evaluate by `decide`. -/
def ratOfNat (k : ℕ) : ℚ := ⟨Int.ofNat k, 1, one_ne_zero, Nat.coprime_one_right _⟩

/-- Modelled from the spec: one `random()` call — a value determined by
the generator state, and the advanced state. -/
def randFloat (s : ℕ) : ℚ × ℕ := (ratOfNat (rngStep s), rngStep s)

/-- Strict application on a numeric state: semantically plain application
(`strictNat_eq`), but the scrutinised condition makes evaluation of long
generation runs force each intermediate state, keeping concrete
evaluation shallow. -/
def strictNat {α : Type} (s : ℕ) (f : ℕ → α) : α :=
  if s = 0 then f s else f s

/-- `strictNat` is plain application. -/
lemma strictNat_eq {α : Type} (s : ℕ) (f : ℕ → α) : strictNat s f = f s := by
  unfold strictNat
  split <;> rfl

/-- Draw `k` successive values, threading the generator state (values
accumulated in reverse draw order). -/
def genListAux : ℕ → ℕ → List ℚ → List ℚ × ℕ
  | 0, s, acc => (acc.reverse, s)
  | k + 1, s, acc =>
    strictNat (randFloat s).2 fun s1 => genListAux k s1 (ratOfNat s1 :: acc)

/-- Draw `k` successive values, threading the generator state. -/
def genList (k s : ℕ) : List ℚ × ℕ := genListAux k s []

/-- The key set of `randProb`'s dictionary comprehension
`((i,j) for i in N for j in N)`, in generation order. -/
def gridKeys (m : ℕ) : List (ℕ × ℕ) :=
  (List.range m).flatMap fun i => (List.range m).map fun j => (i, j)

/-- The body of `randProb(n)` for `n > 0`: the matrix dictionary
`dict(((i,j), random()) ...)` drawn first (row major), then the vector
`[random() for i in N]`, returning both with the final generator state. -/
def randProbM (m s : ℕ) : (MatD × List ℚ) × ℕ :=
  match genList (m * m) s with
  | (avals, s1) =>
    match genList m s1 with
    | (bvals, s2) => (((gridKeys m).zip avals, bvals), s2)

/-- `randProb(n)` including its `n = int(n); assert n > 0` guard, which
fails with an assertion error on a non-positive size. -/
def randProbZ (n : ℤ) (s : ℕ) : Except Err ((MatD × List ℚ) × ℕ) :=
  if n ≤ 0 then .error .assertionError else .ok (randProbM n.toNat s)

/-- A `seed(x); randProb(n)` call sequence as the harness performs it: the
ambient generator state `_ambient` left over from earlier activity is
overwritten by the seed call before generation. -/
def seededRandProb (n x _ambient : ℕ) : (MatD × List ℚ) × ℕ :=
  randProbM n (seedInit x)

/-- A generation run accumulates exactly the requested number of values. -/
lemma genListAux_length :
    ∀ (k s : ℕ) (acc : List ℚ), (genListAux k s acc).1.length = k + acc.length := by
  intro k
  induction k with
  | zero => intro s acc; simp [genListAux]
  | succ m ih =>
    intro s acc
    rw [genListAux, strictNat_eq, ih]
    simp only [List.length_cons]
    omega

/-- A generation run draws exactly the requested number of values. -/
lemma genList_length : ∀ (k s : ℕ), (genList k s).1.length = k := by
  intro k s
  rw [genList, genListAux_length]
  rfl

/-- The dictionary comprehension produces `m * m` keys. -/
lemma gridKeys_length (m : ℕ) : (gridKeys m).length = m * m := by
  simp only [gridKeys, List.length_flatMap, Function.comp_def, List.length_map]
  rw [List.map_const', List.sum_replicate, List.length_range, smul_eq_mul]

/-- Every index pair below the bound occurs among the generated keys. -/
lemma mem_gridKeys (m i j : ℕ) (hi : i < m) (hj : j < m) : (i, j) ∈ gridKeys m := by
  apply List.mem_flatMap.mpr
  exact ⟨i, List.mem_range.mpr hi, List.mem_map.mpr ⟨j, List.mem_range.mpr hj, rfl⟩⟩

/-- A key occurring among a dictionary's keys passes the membership test. -/
lemma dhas_of_mem_fst (A : MatD) (ij : ℕ × ℕ) (h : ij ∈ A.map Prod.fst) :
    dhas A ij = true := by
  rw [dhas, List.any_eq_true]
  obtain ⟨p, hp, hpe⟩ := List.mem_map.mp h
  exact ⟨p, hp, by simp [hpe]⟩

/-- The generated matrix's key list is exactly the index grid. -/
lemma randProbM_fst_keys (m s : ℕ) :
    (randProbM m s).1.1.map Prod.fst = gridKeys m := by
  apply List.map_fst_zip
  rw [gridKeys_length, genListAux_length]
  simp

/-- Shape of a generated instance: `m * m` matrix entries covering every
index pair, and a length-`m` vector. -/
lemma randProbM_shape (m s : ℕ) :
    (randProbM m s).1.1.length = m * m ∧ (randProbM m s).1.2.length = m ∧
    dimOK (randProbM m s).1.1 (randProbM m s).1.2 = true := by
  have hA : (randProbM m s).1.1.length = m * m := by
    have := congrArg List.length (randProbM_fst_keys m s)
    rwa [List.length_map, gridKeys_length] at this
  have hb : (randProbM m s).1.2.length = m := genList_length _ _
  refine ⟨hA, hb, ?_⟩
  simp only [dimOK, Bool.and_eq_true, beq_iff_eq, List.all_eq_true, hA, hb]
  refine ⟨trivial, ?_⟩
  intro i hi j hj
  apply dhas_of_mem_fst
  rw [randProbM_fst_keys]
  exact mem_gridKeys m i j (List.mem_range.mp hi) (List.mem_range.mp hj)

/-- C4: instance generation is deterministic in the seed — a
`seed(X); randProb(n)` sequence yields bit-identical matrix and vector
regardless of the generator state left by earlier activity, because the
seed call overwrites that state and generation is a pure function of the
state.  (In particular two independent `generate(100, seed=X)` calls
agree; `n` here is universally quantified.) -/
theorem randProb_seed_reproducible (n x s₁ s₂ : ℕ) :
    (seededRandProb n x s₁).1.1 = (seededRandProb n x s₂).1.1 ∧
    (seededRandProb n x s₁).1.2 = (seededRandProb n x s₂).1.2 :=
  ⟨rfl, rfl⟩

/-- C10: for `n > 0`, `randProb(n)` returns a matrix dictionary with
exactly `n²` entries — one per index pair below `n` (so the solver's
dimension check `dimOK` accepts the instance) — and a vector of length
`n`; for `n ≤ 0` it fails with the assertion error. -/
theorem randProb_shape (n : ℤ) (s : ℕ) :
    (0 < n →
      randProbZ n s = .ok (randProbM n.toNat s) ∧
      (randProbM n.toNat s).1.1.length = n.toNat * n.toNat ∧
      (randProbM n.toNat s).1.2.length = n.toNat ∧
      dimOK (randProbM n.toNat s).1.1 (randProbM n.toNat s).1.2 = true) ∧
    (n ≤ 0 → randProbZ n s = .error .assertionError) := by
  constructor
  · intro h
    refine ⟨?_, randProbM_shape _ _⟩
    rw [randProbZ, if_neg (not_le.mpr h)]
  · intro h
    rw [randProbZ, if_pos h]

/-- Witness for C10 at `n = 2`, seed state `0`. -/
theorem randProb_shape_witness :
    randProbZ 2 0 = .ok (randProbM 2 0) ∧
    (randProbM 2 0).1.1.length = 2 * 2 ∧ (randProbM 2 0).1.2.length = 2 ∧
    dimOK (randProbM 2 0).1.1 (randProbM 2 0).1.2 = true :=
  (randProb_shape 2 0).1 (by norm_num)

/-- The size series of `speed`'s loop `prev,n = 0.0, 50; while n <= maxSize:
…; n *= 2` — the sizes in iteration order.  (The `n = 0` disjunct only
serves termination; the loop always starts at 50.) -/
def sizeSeries (n maxSize : ℕ) : List ℕ :=
  if n = 0 ∨ maxSize < n then []
  else n :: sizeSeries (2 * n) maxSize
termination_by maxSize + 1 - n
decreasing_by omega

/-- Unfolding equation of `sizeSeries`, usable for concrete evaluation. -/
lemma sizeSeries_unfold (n maxSize : ℕ) :
    sizeSeries n maxSize =
      if n = 0 ∨ maxSize < n then [] else n :: sizeSeries (2 * n) maxSize := by
  rw [sizeSeries]

/-- With `maxSize = 50` the harness runs the single size 50. -/
lemma sizeSeries_5050 : sizeSeries 50 50 = [50] := by
  rw [sizeSeries_unfold, if_neg (by norm_num), sizeSeries_unfold, if_pos (by norm_num)]

/-- Membership in the size series: exactly the doublings of the base size
that do not exceed `maxSize` (inclusive boundary). -/
lemma sizeSeries_mem (n maxSize : ℕ) :
    ∀ x, n ≠ 0 → (x ∈ sizeSeries n maxSize ↔ ∃ k, x = n * 2 ^ k ∧ x ≤ maxSize) := by
  induction n, maxSize using sizeSeries.induct with
  | case1 n maxSize h =>
    intro x hn
    rw [sizeSeries_unfold, if_pos h]
    simp only [List.not_mem_nil, false_iff]
    rintro ⟨k, rfl, hle⟩
    have hM : maxSize < n := h.resolve_left hn
    have hpow : n ≤ n * 2 ^ k := Nat.le_mul_of_pos_right n (pow_pos (by norm_num) k)
    omega
  | case2 n maxSize h ih =>
    intro x hn
    rw [sizeSeries_unfold, if_neg h]
    constructor
    · intro hx
      rcases List.mem_cons.mp hx with he | ht
      · exact ⟨0, by rw [he, pow_zero, mul_one], by omega⟩
      · obtain ⟨k, hk, hle⟩ := (ih x (by omega)).mp ht
        exact ⟨k + 1, by rw [hk]; ring, hle⟩
    · rintro ⟨k, rfl, hle⟩
      cases k with
      | zero =>
        rw [pow_zero, mul_one]
        exact List.mem_cons_self n _
      | succ k' =>
        apply List.mem_cons_of_mem
        exact (ih (n * 2 ^ (k' + 1)) (by omega)).mpr ⟨k', by ring, hle⟩

/-- `statistics.mean` of a list of trial durations. -/
def mean (l : List ℚ) : ℚ := l.sum / l.length

/-- One printed line of `speed`: the size, the mean trial duration, and
the ratio to the previous size's mean when one was printed. -/
structure Report where
  size : ℕ
  meanT : ℚ
  ratio : Option ℚ

/-- The body of `speed`'s while loop over the size series, threading
`prev` (the previous size's mean, initially `0.0`): each size reports its
mean and prints the ratio `mean(t)/prev` only when `prev > 0`.  Trial
durations are an oracle `d` since the timer is external. -/
def reportLoop (d : ℕ → List ℚ) : List ℕ → ℚ → List Report
  | [], _ => []
  | n :: rest, prev =>
    { size := n, meanT := mean (d n),
      ratio := if 0 < prev then some (mean (d n) / prev) else none } ::
      reportLoop d rest (mean (d n))

/-- The reports a `speed(method, maxSize)` call prints, one per size. -/
def speedReports (d : ℕ → List ℚ) (maxSize : ℕ) : List Report :=
  reportLoop d (sizeSeries 50 maxSize) 0

/-- The loop reports exactly the sizes it iterates over, in order. -/
lemma reportLoop_map_size (d : ℕ → List ℚ) :
    ∀ (L : List ℕ) (prev : ℚ), (reportLoop d L prev).map Report.size = L := by
  intro L
  induction L with
  | nil => intro prev; simp [reportLoop]
  | cons n rest ih => intro prev; simp [reportLoop, ih]

/-- Each report's mean is the mean of that size's trial durations. -/
lemma reportLoop_meanT (d : ℕ → List ℚ) :
    ∀ (L : List ℕ) (prev : ℚ) (r : Report),
      r ∈ reportLoop d L prev → r.meanT = mean (d r.size) := by
  intro L
  induction L with
  | nil => intro prev r h; simp [reportLoop] at h
  | cons n rest ih =>
    intro prev r h
    rcases List.mem_cons.mp h with he | ht
    · rw [he]
    · exact ih _ r ht

/-- When every size's mean is positive, each report after the first
carries the ratio of its mean to the previous report's mean. -/
lemma reportLoop_chain (d : ℕ → List ℚ) :
    ∀ (L : List ℕ) (prev : ℚ), (∀ n ∈ L, 0 < mean (d n)) →
      List.Chain' (fun r r' => r'.ratio = some (r'.meanT / r.meanT))
        (reportLoop d L prev) := by
  intro L
  induction L with
  | nil => intro prev _; simp [reportLoop]
  | cons n rest ih =>
    intro prev h
    rw [reportLoop, List.chain'_cons']
    constructor
    · intro y hy
      cases rest with
      | nil => simp [reportLoop] at hy
      | cons n' rest' =>
        simp only [reportLoop, List.head?_cons, Option.mem_def, Option.some.injEq] at hy
        rw [← hy]
        have hpos : 0 < mean (d n) := h n (List.mem_cons_self n _)
        simp [if_pos hpos]
    · exact ih (mean (d n)) (fun m hm => h m (List.mem_cons_of_mem n hm))

/-- C5: the harness runs exactly the sizes 50, 100, 200, … while
`n ≤ maxSize` (inclusive), stopping once `n` exceeds `maxSize`; each
report's mean is that size's mean trial duration; the first size's report
omits the ratio; and (when the measured means are positive, as durations
of real work are) every later report carries the ratio of its mean to the
previous size's mean. -/
theorem speed_sizes_ratios (maxSize : ℕ) (d : ℕ → List ℚ)
    (hd : ∀ n, 0 < mean (d n)) :
    (speedReports d maxSize).map Report.size = sizeSeries 50 maxSize ∧
    (∀ x, x ∈ sizeSeries 50 maxSize ↔ ∃ k, x = 50 * 2 ^ k ∧ x ≤ maxSize) ∧
    (∀ r ∈ speedReports d maxSize, r.meanT = mean (d r.size)) ∧
    (∀ r, (speedReports d maxSize).head? = some r → r.ratio = none) ∧
    List.Chain' (fun r r' => r'.ratio = some (r'.meanT / r.meanT))
      (speedReports d maxSize) := by
  refine ⟨reportLoop_map_size d _ _, fun x => sizeSeries_mem 50 maxSize x (by norm_num),
    ?_, ?_, ?_⟩
  · intro r hr
    exact reportLoop_meanT d _ _ r hr
  · intro r hr
    unfold speedReports at hr
    cases hs : sizeSeries 50 maxSize with
    | nil => rw [hs] at hr; simp [reportLoop] at hr
    | cons n rest =>
      rw [hs] at hr
      simp only [reportLoop, List.head?_cons, Option.some.injEq] at hr
      rw [← hr]
      norm_num
  · exact reportLoop_chain d _ _ (fun n _ => hd n)

/-- Witness for C5 with constant trial durations `[1,2,3,4,5]` (mean 3)
and `maxSize = 200`. -/
theorem speed_sizes_ratios_witness :
    (speedReports (fun _ => [1, 2, 3, 4, 5]) 200).map Report.size = sizeSeries 50 200 ∧
    (∀ x, x ∈ sizeSeries 50 200 ↔ ∃ k, x = 50 * 2 ^ k ∧ x ≤ 200) ∧
    (∀ r ∈ speedReports (fun _ => [1, 2, 3, 4, 5]) 200,
      r.meanT = mean ((fun _ => [1, 2, 3, 4, 5]) r.size)) ∧
    (∀ r, (speedReports (fun _ => [1, 2, 3, 4, 5]) 200).head? = some r → r.ratio = none) ∧
    List.Chain' (fun r r' => r'.ratio = some (r'.meanT / r.meanT))
      (speedReports (fun _ => [1, 2, 3, 4, 5]) 200) :=
  speed_sizes_ratios 200 (fun _ => [1, 2, 3, 4, 5])
    (by intro n; norm_num [mean, List.sum_cons, List.sum_nil])

/-- The two phases of a `timeit` repetition: the untimed setup and the
timed statement execution. -/
inductive Phase where
  | setupPhase : Phase
  | timedPhase : Phase
deriving DecidableEq

/-- Events inside one size's `timeit.repeat` call: an instance generation
(`A,b=randP(n)`) or a solver call (`method(A,b)`) on a given instance. -/
inductive TEv where
  | genEv (n : ℕ) : TEv
  | callEv (inst : MatD × List ℚ) : TEv
deriving DecidableEq

/-- Modelled from the spec: `timeit.repeat(stmt="method(A,b)",
setup="A,b=randP(n)", …, repeat, number=1)` executes, for each of the
`repeat` repetitions, the setup once (outside the timed region) and then
times one execution of the statement.  The events of all repetitions at
one size, threading the generator state through the setups. -/
def trialTrace (n : ℕ) : ℕ → ℕ → List (Phase × TEv) × ℕ
  | 0, s => ([], s)
  | r + 1, s =>
    match randProbM n s with
    | (inst, s') =>
      match trialTrace n r s' with
      | (evs, sEnd) =>
        ((Phase.setupPhase, TEv.genEv n) ::
          (Phase.timedPhase, TEv.callEv inst) :: evs, sEnd)

/-- The instance handed to the timed solver call of each successive
repetition, in order. -/
def timedInstances (n : ℕ) : ℕ → ℕ → List (MatD × List ℚ)
  | 0, _ => []
  | r + 1, s =>
    match randProbM n s with
    | (inst, s') => inst :: timedInstances n r s'

/-- C6 (amended): at each size the harness runs `reps` trials; every trial
first generates its own fresh instance in the untimed setup phase and then
times exactly one solver call on that trial's instance — the timed region
contains exactly the `reps` solver calls (one per trial, on the
`timedInstances` in order) and never a generation, and the trace holds one
generation per trial. -/
theorem speed_trials_fresh_instances (n : ℕ) :
    ∀ (reps s : ℕ),
      (((trialTrace n reps s).1.filter fun pe => pe.1 == Phase.timedPhase).map Prod.snd
        = (timedInstances n reps s).map TEv.callEv) ∧
      (∀ pe ∈ (trialTrace n reps s).1, ∀ m, pe.2 = TEv.genEv m → pe.1 = Phase.setupPhase) ∧
      (((trialTrace n reps s).1.filter fun pe => pe.1 == Phase.setupPhase).length = reps) ∧
      ((timedInstances n reps s).length = reps) := by
  intro reps
  induction reps with
  | zero =>
    intro s
    refine ⟨rfl, ?_, rfl, rfl⟩
    intro pe hpe
    simp [trialTrace] at hpe
  | succ r ih =>
    intro s
    obtain ⟨ih1, ih2, ih3, ih4⟩ := ih (randProbM n s).2
    have htr : trialTrace n (r + 1) s =
        ((Phase.setupPhase, TEv.genEv n) ::
          (Phase.timedPhase, TEv.callEv (randProbM n s).1) :: (trialTrace n r (randProbM n s).2).1,
         (trialTrace n r (randProbM n s).2).2) := rfl
    have hti : timedInstances n (r + 1) s =
        (randProbM n s).1 :: timedInstances n r (randProbM n s).2 := rfl
    refine ⟨?_, ?_, ?_, ?_⟩
    · rw [htr, hti]
      simp [List.filter_cons, ih1]
    · rw [htr]
      intro pe hpe m hm
      rcases List.mem_cons.mp hpe with h1 | h1
      · rw [h1]
      · rcases List.mem_cons.mp h1 with h2 | h2
        · rw [h2] at hm
          exact absurd hm (by simp)
        · exact ih2 pe h2 m hm
    · rw [htr]
      simp [List.filter_cons, ih3]
    · rw [hti, List.length_cons, ih4]

/-- Witness for C6's amended statement: the timed region of two trials at
size 1 contains exactly the two per-trial instances. -/
theorem speed_trials_fresh_instances_witness :
    ((trialTrace 1 2 0).1.filter fun pe => pe.1 == Phase.timedPhase).map Prod.snd
      = (timedInstances 1 2 0).map TEv.callEv :=
  (speed_trials_fresh_instances 1 2 0).1

set_option maxRecDepth 100000 in
set_option maxHeartbeats 2000000 in
/-- Counterexample to C6 as stated: at size 50 of a sweep seeded with
123456 (the constants of `speed`), the instance timed in the first trial
differs from the instance timed in the second — the five trials do not
share one instance, because the `timeit` setup regenerates `A, b` before
every repetition. -/
theorem speed_trials_not_one_instance :
    (timedInstances 50 5 (seedInit 123456)).get? 0 ≠
      (timedInstances 50 5 (seedInit 123456)).get? 1 := by
  decide

/-- Garbage-collector-relevant events of a `speed` run: the `gc.disable()`
and `gc.enable()` bracketing the sweep, the per-size `gc.collect()`, and
the timed trials themselves. -/
inductive GEv where
  | disableEv : GEv
  | enableEv : GEv
  | collectEv : GEv
  | trialEv (n : ℕ) (idx : ℕ) : GEv
deriving DecidableEq

/-- The GC events of one size's loop iteration: one `gc.collect()` and
then the five timed trials of `timeit.repeat`. -/
def sizeBlock (n : ℕ) : List GEv :=
  GEv.collectEv :: (List.range 5).map fun r => GEv.trialEv n r

/-- GC events between the disable and the enable of a sweep: one
`sizeBlock` per size, in series order. -/
def midTrace (maxSize : ℕ) : List GEv :=
  (sizeSeries 50 maxSize).flatMap sizeBlock

/-- GC events of a full `speed(method, maxSize)` run, in program order:
`gc.disable()`, then per size `gc.collect()` followed by the five timed
trials, then `gc.enable()` after the whole sweep. -/
def sweepTrace (maxSize : ℕ) : List GEv :=
  GEv.disableEv :: (midTrace maxSize ++ [GEv.enableEv])

/-- Effect of one event on the automatic-GC enabled flag. -/
def gcNext (g : Bool) (e : GEv) : Bool :=
  match e with
  | GEv.disableEv => false
  | GEv.enableEv => true
  | _ => g

/-- The enabled flag after a sequence of events, from a given start. -/
def gcFinal (g : Bool) (l : List GEv) : Bool := l.foldl gcNext g

/-- Each event paired with the enabled flag at its occurrence. -/
def gcAnnotate : Bool → List GEv → List (Bool × GEv)
  | _, [] => []
  | g, e :: r => (g, e) :: gcAnnotate (gcNext g e) r

/-- The discipline C8 claims: scanning the trace, every timed trial must
be preceded by a collect performed after the previous trial (or after the
start, for the first trial). -/
def collectScan : Bool → List GEv → Bool
  | _, [] => true
  | _, GEv.collectEv :: r => collectScan true r
  | flag, GEv.trialEv _ _ :: r => flag && collectScan false r
  | flag, _ :: r => collectScan flag r

/-- Entry point of the scan (no collect has happened yet). -/
def collectBeforeEveryTrial (tr : List GEv) : Bool := collectScan false tr

/-- Annotation distributes over appending, continuing from the reached
flag. -/
lemma gcAnnotate_append (l₁ : List GEv) :
    ∀ (g : Bool) (l₂ : List GEv),
      gcAnnotate g (l₁ ++ l₂) = gcAnnotate g l₁ ++ gcAnnotate (gcFinal g l₁) l₂ := by
  induction l₁ with
  | nil => intro g l₂; rfl
  | cons e r ih =>
    intro g l₂
    simp only [List.cons_append, gcAnnotate, List.cons.injEq, true_and]
    exact ih (gcNext g e) l₂

/-- Over events that never re-enable GC, the disabled flag persists at
every event. -/
lemma gcAnnotate_stays_false :
    ∀ (l : List GEv), (∀ e ∈ l, gcNext false e = false) →
      ∀ p ∈ gcAnnotate false l, p.1 = false := by
  intro l
  induction l with
  | nil => intro _ p hp; simp [gcAnnotate] at hp
  | cons e r ih =>
    intro h p hp
    rw [gcAnnotate, h e (List.mem_cons_self e _)] at hp
    rcases List.mem_cons.mp hp with h1 | h1
    · rw [h1]
    · exact ih (fun x hx => h x (List.mem_cons_of_mem e hx)) p h1

/-- Over events that never re-enable GC, the flag stays disabled. -/
lemma gcFinal_stays_false :
    ∀ (l : List GEv), (∀ e ∈ l, gcNext false e = false) → gcFinal false l = false := by
  intro l
  induction l with
  | nil => intro _; rfl
  | cons e r ih =>
    intro h
    show gcFinal (gcNext false e) r = false
    rw [h e (List.mem_cons_self e _)]
    exact ih (fun x hx => h x (List.mem_cons_of_mem e hx))

/-- Between disable and enable, the trace holds only collects and trials. -/
lemma mem_midTrace (maxSize : ℕ) (e : GEv) (he : e ∈ midTrace maxSize) :
    e = GEv.collectEv ∨ ∃ n r, e = GEv.trialEv n r := by
  rw [midTrace, List.mem_flatMap] at he
  obtain ⟨n, _, hcons⟩ := he
  rcases List.mem_cons.mp hcons with h | h
  · exact Or.inl h
  · obtain ⟨r, _, hr⟩ := List.mem_map.mp h
    exact Or.inr ⟨n, r, hr.symm⟩

/-- Collects and trials do not change the enabled flag. -/
lemma gcNext_midTrace (maxSize : ℕ) :
    ∀ e ∈ midTrace maxSize, gcNext false e = false := by
  intro e he
  rcases mem_midTrace maxSize e he with h | ⟨n, r, h⟩ <;> rw [h] <;> rfl

/-- C8 (amended): automatic garbage collection is disabled during every
timed trial of the sweep (and during the collects); the harness forces a
full collection pass once before each size's batch of trials — immediately
before that size's first trial, outside any timed region — not before
every individual trial; and automatic collection is restored by the single
`gc.enable()`, the last event of the sweep. -/
theorem speed_gc_discipline (maxSize : ℕ) :
    (∀ p ∈ gcAnnotate true (sweepTrace maxSize),
      ∀ n r, p.2 = GEv.trialEv n r → p.1 = false) ∧
    (∀ n ∈ sizeSeries 50 maxSize,
      ∃ u v, sweepTrace maxSize = u ++ GEv.collectEv :: GEv.trialEv n 0 :: v) ∧
    gcFinal true (sweepTrace maxSize) = true ∧
    (sweepTrace maxSize).getLast? = some GEv.enableEv ∧
    (sweepTrace maxSize).count GEv.enableEv = 1 := by
  refine ⟨?_, ?_, ?_, ?_, ?_⟩
  · intro p hp n r hpe
    have hsw : gcAnnotate true (sweepTrace maxSize) =
        (true, GEv.disableEv) :: gcAnnotate false (midTrace maxSize ++ [GEv.enableEv]) := rfl
    rw [hsw] at hp
    rcases List.mem_cons.mp hp with h1 | h1
    · rw [h1] at hpe
      exact absurd hpe (by simp)
    · rw [gcAnnotate_append] at h1
      rcases List.mem_append.mp h1 with h2 | h2
      · exact gcAnnotate_stays_false _ (gcNext_midTrace maxSize) p h2
      · rw [gcFinal_stays_false _ (gcNext_midTrace maxSize)] at h2
        have hone : gcAnnotate false [GEv.enableEv] = [(false, GEv.enableEv)] := rfl
        rw [hone] at h2
        rw [List.mem_singleton.mp h2]
  · intro n hn
    obtain ⟨s₁, s₂, hsplit⟩ := List.append_of_mem hn
    refine ⟨GEv.disableEv :: s₁.flatMap sizeBlock,
      [GEv.trialEv n 1, GEv.trialEv n 2, GEv.trialEv n 3, GEv.trialEv n 4] ++
        s₂.flatMap sizeBlock ++ [GEv.enableEv], ?_⟩
    have hblock : sizeBlock n =
        GEv.collectEv :: GEv.trialEv n 0 :: [GEv.trialEv n 1, GEv.trialEv n 2,
          GEv.trialEv n 3, GEv.trialEv n 4] := rfl
    rw [sweepTrace, midTrace, hsplit, List.flatMap_append, List.flatMap_cons, hblock]
    simp [List.append_assoc, List.cons_append]
  · show gcFinal (gcNext true GEv.disableEv) (midTrace maxSize ++ [GEv.enableEv]) = true
    rw [show gcNext true GEv.disableEv = false from rfl, gcFinal, List.foldl_append]
    rw [show List.foldl gcNext false (midTrace maxSize) = gcFinal false (midTrace maxSize)
      from rfl]
    rw [gcFinal_stays_false _ (gcNext_midTrace maxSize)]
    rfl
  · rw [show sweepTrace maxSize =
      (GEv.disableEv :: midTrace maxSize) ++ [GEv.enableEv] from by
        rw [sweepTrace, List.cons_append]]
    exact List.getLast?_concat _
  · have hmem : GEv.enableEv ∉ midTrace maxSize := by
      intro h
      rcases mem_midTrace maxSize _ h with h1 | ⟨n, r, h1⟩ <;> simp at h1
    rw [sweepTrace, List.count_cons, List.count_append, List.count_eq_zero.mpr hmem]
    rfl

/-- Witness for C8's amended statement at `maxSize = 50`: GC is re-enabled
exactly once, by the final event of the sweep. -/
theorem speed_gc_discipline_witness :
    (sweepTrace 50).getLast? = some GEv.enableEv ∧
    (sweepTrace 50).count GEv.enableEv = 1 :=
  ⟨(speed_gc_discipline 50).2.2.2.1, (speed_gc_discipline 50).2.2.2.2⟩

/-- Counterexample to C8 as stated: already for `maxSize = 50` (a single
size with five trials) the trace has no collect between consecutive
trials, so a full garbage-collection pass is not forced before each timed
trial — only once before each size's batch. -/
theorem speed_gc_not_before_each_trial :
    collectBeforeEveryTrial (sweepTrace 50) = false := by
  have h : sweepTrace 50 =
      [GEv.disableEv, GEv.collectEv, GEv.trialEv 50 0, GEv.trialEv 50 1, GEv.trialEv 50 2,
        GEv.trialEv 50 3, GEv.trialEv 50 4, GEv.enableEv] := by
    rw [sweepTrace, midTrace, sizeSeries_5050]
    rfl
  rw [h]
  rfl

/-- One size's five trials as `speed` runs them under a fallible solver:
each trial generates its instance in the `timeit` setup and then calls the
solver once; the first failure aborts the remaining trials; a full pass
yields the generator state for the next size. -/
def runTrials (meth : MatD → List ℚ → Except Err (List ℚ)) (n : ℕ) :
    ℕ → ℕ → Except Err ℕ
  | 0, s => .ok s
  | r + 1, s =>
    match randProbM n s with
    | (inst, s') =>
      match meth inst.1 inst.2 with
      | .error e => .error e
      | .ok _ => runTrials meth n r s'

/-- Generator state after the trials of a list of fully completed sizes
(`none` when a failure interrupted them). -/
def statesOk (meth : MatD → List ℚ → Except Err (List ℚ)) : List ℕ → ℕ → Option ℕ
  | [], s => some s
  | n :: rest, s =>
    match runTrials meth n 5 s with
    | .error _ => none
    | .ok s' => statesOk meth rest s'

/-- The sweep loop over the size series: accumulates the printed size
lines (`done`) and stops at the first solver failure, returning it
unchanged; the harness itself prints nothing about a failure. -/
def speedGo (meth : MatD → List ℚ → Except Err (List ℚ)) :
    List ℕ → ℕ → List ℕ → List ℕ × Option Err
  | [], _, done => (done, none)
  | n :: rest, s, done =>
    match runTrials meth n 5 s with
    | .error e => (done, some e)
    | .ok s' => speedGo meth rest s' (done ++ [n])

/-- A full `speed(method, maxSize)` run under a fallible solver: the sizes
whose report lines were printed, and the propagated failure if one
occurred.  The seed is the source's hard-coded constant 123456. -/
def speedRun (meth : MatD → List ℚ → Except Err (List ℚ)) (maxSize : ℕ) :
    List ℕ × Option Err :=
  speedGo meth (sizeSeries 50 maxSize) (seedInit 123456) []

/-- Behaviour of the sweep loop: the completed sizes are an initial
segment of the sizes to run; no failure means everything ran; a failure is
the solver's own error, raised by a trial at the first size not
completed. -/
lemma speedGo_spec (meth : MatD → List ℚ → Except Err (List ℚ)) :
    ∀ (sizes : List ℕ) (s : ℕ) (done : List ℕ),
      ∃ comp rest,
        (speedGo meth sizes s done).1 = done ++ comp ∧
        sizes = comp ++ rest ∧
        ((speedGo meth sizes s done).2 = none → rest = []) ∧
        (∀ e, (speedGo meth sizes s done).2 = some e →
          ∃ n rest2 sAt, rest = n :: rest2 ∧ statesOk meth comp s = some sAt ∧
            runTrials meth n 5 sAt = .error e) := by
  intro sizes
  induction sizes with
  | nil =>
    intro s done
    exact ⟨[], [], by simp [speedGo], rfl, fun _ => rfl,
      fun e he => by simp [speedGo] at he⟩
  | cons n rest ih =>
    intro s done
    cases hrt : runTrials meth n 5 s with
    | error e =>
      have hs : speedGo meth (n :: rest) s done = (done, some e) := by
        rw [speedGo, hrt]
      refine ⟨[], n :: rest, by rw [hs]; simp, rfl, ?_, ?_⟩
      · intro hnone
        rw [hs] at hnone
        simp at hnone
      · intro e' he'
        rw [hs] at he'
        simp only [Option.some.injEq] at he'
        exact ⟨n, rest, s, rfl, rfl, by rw [hrt, he']⟩
    | ok s' =>
      have hs : speedGo meth (n :: rest) s done = speedGo meth rest s' (done ++ [n]) := by
        rw [speedGo, hrt]
      obtain ⟨comp, rest2, h1, h2, h3, h4⟩ := ih s' (done ++ [n])
      refine ⟨n :: comp, rest2, ?_, ?_, ?_, ?_⟩
      · rw [hs, h1, List.append_assoc]
        rfl
      · rw [h2]
        rfl
      · intro hnone
        rw [hs] at hnone
        exact h3 hnone
      · intro e he
        rw [hs] at he
        obtain ⟨n2, rest3, sAt, ha, hb, hc⟩ := h4 e he
        refine ⟨n2, rest3, sAt, ha, ?_, hc⟩
        show statesOk meth (n :: comp) s = some sAt
        rw [statesOk, hrt]
        exact hb

/-- C9 (amended): a solver failure during the sweep aborts it and is
propagated to the caller as the solver's own error, never swallowed: the
printed sizes are an initial segment of the series, a `none` outcome means
the whole series completed, and a returned error is exactly an error the
solver raised on a generated instance at the first size not completed —
identifiable as the next element of the deterministic series, with the
seed the fixed constant 123456 — though the harness emits no failure
report of its own. -/
theorem speed_propagates_failure (meth : MatD → List ℚ → Except Err (List ℚ))
    (maxSize : ℕ) :
    ∃ rest,
      sizeSeries 50 maxSize = (speedRun meth maxSize).1 ++ rest ∧
      ((speedRun meth maxSize).2 = none → rest = []) ∧
      (∀ e, (speedRun meth maxSize).2 = some e →
        ∃ n rest2 sAt, rest = n :: rest2 ∧
          statesOk meth (speedRun meth maxSize).1 (seedInit 123456) = some sAt ∧
          runTrials meth n 5 sAt = .error e) := by
  obtain ⟨comp, rest, h1, h2, h3, h4⟩ :=
    speedGo_spec meth (sizeSeries 50 maxSize) (seedInit 123456) []
  have hc : (speedRun meth maxSize).1 = comp := by
    rw [speedRun, h1]
    rfl
  refine ⟨rest, ?_, ?_, ?_⟩
  · rw [hc]
    exact h2
  · intro hnone
    exact h3 hnone
  · intro e he
    rw [hc]
    exact h4 e he

/-- A solver that always fails, as a singular pivot would. -/
def failSolver : MatD → List ℚ → Except Err (List ℚ) :=
  fun _ _ => .error Err.singularMatrix

/-- Witness for C9's amended statement: the always-failing solver at
`maxSize = 50`. -/
theorem speed_propagates_failure_witness :
    ∃ rest,
      sizeSeries 50 50 = (speedRun failSolver 50).1 ++ rest ∧
      ((speedRun failSolver 50).2 = none → rest = []) ∧
      (∀ e, (speedRun failSolver 50).2 = some e →
        ∃ n rest2 sAt, rest = n :: rest2 ∧
          statesOk failSolver (speedRun failSolver 50).1 (seedInit 123456) = some sAt ∧
          runTrials failSolver n 5 sAt = .error e) :=
  speed_propagates_failure failSolver 50

set_option maxRecDepth 100000 in
set_option maxHeartbeats 2000000 in
/-- Counterexample to C9 as stated: when the solver fails at the very
first size of a `maxSize = 50` sweep, the harness's entire output is the
bare propagated error with no printed lines — neither the failing size 50
nor the seed 123456 appears anywhere in it, so the harness does not
identify them. -/
theorem speed_failure_unreported :
    speedRun failSolver 50 = ([], some Err.singularMatrix) ∧
    50 ∉ (speedRun failSolver 50).1 ∧ 123456 ∉ (speedRun failSolver 50).1 := by
  have h : speedRun failSolver 50 = ([], some Err.singularMatrix) := by
    rw [speedRun, sizeSeries_5050]
    rfl
  refine ⟨h, ?_, ?_⟩ <;> rw [h] <;> simp

end NeedForSpeed
